import Mathlib

/-!
Verification of the BLS signcryption ciphertext module
(`src/sign_crypt_ciphertext.rs` of agora-blsful).

The module is a thin dispatch layer: a `SignCryptCiphertext` holds the
components `u`, `v`, `w` and a `scheme` tag; `decrypt` and `is_valid`
resolve the domain-separation tag (DST) from the scheme and delegate to
external signcryption primitives (`unseal`, `valid`, `decrypt`); a
`SignCryptDecryptionKey` wraps a single group point obtained either
directly or by combining decryption shares.

The external primitives live outside the verified source file, so they
are modelled here in two ways: the structural theorems quantify over an
arbitrary capability bundle (`SignCryptPrims`), and the behavioural
theorems use a concrete instance (`modelPrims`) built from the contracts
the specification states for the external collaborators.
-/

namespace BlsfulSignCrypt

/-- The closed set of BLS signature-variant identifiers
(`SignatureSchemes` in the source). -/
inductive SignatureSchemes where
  | Basic
  | MessageAugmentation
  | ProofOfPossession
deriving DecidableEq, Repr

/-- Error type returned by share combination (`BlsError` in the source,
restricted to the combination failures the spec distinguishes). -/
inductive CombinationError where
  | belowThreshold
  | duplicateIndex
  | malformedShare
deriving DecidableEq, Repr

/-- The capability bundle the generic parameter `C` of the source file
provides through its trait bounds: the three DST constants and the four
external primitives (`BlsSignCrypt::unseal`, `BlsSignCrypt::valid`,
`BlsSignCrypt::decrypt`, `BlsSignatureCore::core_combine_public_key_shares`).
The constant-time `Choice` is modelled as `Bool` and `CtOption` as
`Option`. -/
structure SignCryptPrims (PublicKey Signature SecretKeyRaw PublicKeyShare : Type) where
  basicDST : List Nat
  augDST : List Nat
  popSigDST : List Nat
  «unseal» : PublicKey → List Nat → Signature → SecretKeyRaw → List Nat → Option (List Nat)
  valid : PublicKey → List Nat → Signature → List Nat → Bool
  decrypt : List Nat → PublicKey → Bool → Option (List Nat)
  core_combine_public_key_shares : List PublicKeyShare → Except CombinationError PublicKey

/-- The ciphertext output from sign crypt encryption (`SignCryptCiphertext`):
components `u`, `v`, `w` and the scheme tag. -/
structure SignCryptCiphertext (PublicKey Signature : Type) where
  u : PublicKey
  v : List Nat
  w : Signature
  scheme : SignatureSchemes

/-- The secret key wrapper (`SecretKey<C>`); `raw` is the Rust field `.0`. -/
structure SecretKey (SecretKeyRaw : Type) where
  raw : SecretKeyRaw

/-- A signcrypt decryption key (`SignCryptDecryptionKey`), wrapping a single
public-key point; `point` is the Rust field `.0`. -/
structure SignCryptDecryptionKey (PublicKey : Type) where
  point : PublicKey

/-- A decryption share (`SignDecryptionShare`), wrapping one participant's
partial point; `share` is the Rust field `.0`. -/
structure SignDecryptionShare (PublicKeyShare : Type) where
  share : PublicKeyShare

variable {PublicKey Signature SecretKeyRaw PublicKeyShare : Type}

/-- Embedding of `SignCryptCiphertext::decrypt`: resolve the DST from the
scheme tag by an exhaustive match, then delegate to `unseal`. -/
def SignCryptCiphertext.decrypt
    (P : SignCryptPrims PublicKey Signature SecretKeyRaw PublicKeyShare)
    (self : SignCryptCiphertext PublicKey Signature)
    (sk : SecretKey SecretKeyRaw) : Option (List Nat) :=
  let dst := match self.scheme with
    | SignatureSchemes.Basic => P.basicDST
    | SignatureSchemes.MessageAugmentation => P.augDST
    | SignatureSchemes.ProofOfPossession => P.popSigDST
  P.«unseal» self.u self.v self.w sk.raw dst

/-- Embedding of `SignCryptCiphertext::is_valid`: an exhaustive match on the
scheme tag, each branch delegating to `valid` with that scheme's DST. -/
def SignCryptCiphertext.is_valid
    (P : SignCryptPrims PublicKey Signature SecretKeyRaw PublicKeyShare)
    (self : SignCryptCiphertext PublicKey Signature) : Bool :=
  match self.scheme with
  | SignatureSchemes.Basic => P.valid self.u self.v self.w P.basicDST
  | SignatureSchemes.MessageAugmentation => P.valid self.u self.v self.w P.augDST
  | SignatureSchemes.ProofOfPossession => P.valid self.u self.v self.w P.popSigDST

/-- Embedding of `SignCryptDecryptionKey::decrypt`: resolve the DST, compute
the constant-time validity boolean, and pass it (unbranched) to the external
`decrypt` primitive. -/
def SignCryptDecryptionKey.decrypt
    (P : SignCryptPrims PublicKey Signature SecretKeyRaw PublicKeyShare)
    (self : SignCryptDecryptionKey PublicKey)
    (ciphertext : SignCryptCiphertext PublicKey Signature) : Option (List Nat) :=
  let dst := match ciphertext.scheme with
    | SignatureSchemes.Basic => P.basicDST
    | SignatureSchemes.MessageAugmentation => P.augDST
    | SignatureSchemes.ProofOfPossession => P.popSigDST
  let choice := P.valid ciphertext.u ciphertext.v ciphertext.w dst
  P.decrypt ciphertext.v self.point choice

/-- Embedding of `SignCryptDecryptionKey::from_shares`: extract the wrapped
points in order and delegate to the external combiner. -/
def SignCryptDecryptionKey.from_shares
    (P : SignCryptPrims PublicKey Signature SecretKeyRaw PublicKeyShare)
    (shares : List (SignDecryptionShare PublicKeyShare)) :
    Except CombinationError (SignCryptDecryptionKey PublicKey) :=
  let points := shares.map (fun s => s.share)
  (P.core_combine_public_key_shares points).map SignCryptDecryptionKey.mk

/-- The Scheme Registry of the spec (§4.1): the pure total mapping from a
scheme identifier to its DST, with no default branch and no error case. -/
def dst_for
    (P : SignCryptPrims PublicKey Signature SecretKeyRaw PublicKeyShare)
    (scheme : SignatureSchemes) : List Nat :=
  match scheme with
  | SignatureSchemes.Basic => P.basicDST
  | SignatureSchemes.MessageAugmentation => P.augDST
  | SignatureSchemes.ProofOfPossession => P.popSigDST

/-- C1: the DST used by `SignCryptCiphertext::decrypt`,
`SignCryptCiphertext::is_valid` and `SignCryptDecryptionKey::decrypt` is
resolved from the scheme tag by the fixed total mapping
`Basic ↦ BlsSignatureBasic::DST`, `MessageAugmentation ↦
BlsSignatureMessageAugmentation::DST`, `ProofOfPossession ↦
BlsSignaturePop::SIG_DST` (the registry `dst_for`, total over the closed
enum with no error case), and each operation delegates with exactly that
DST. -/
theorem dst_resolution_total_registry
    (P : SignCryptPrims PublicKey Signature SecretKeyRaw PublicKeyShare)
    (ct : SignCryptCiphertext PublicKey Signature)
    (sk : SecretKey SecretKeyRaw)
    (k : SignCryptDecryptionKey PublicKey) :
    SignCryptCiphertext.decrypt P ct sk
        = P.«unseal» ct.u ct.v ct.w sk.raw (dst_for P ct.scheme)
      ∧ SignCryptCiphertext.is_valid P ct
        = P.valid ct.u ct.v ct.w (dst_for P ct.scheme)
      ∧ SignCryptDecryptionKey.decrypt P k ct
        = P.decrypt ct.v k.point (P.valid ct.u ct.v ct.w (dst_for P ct.scheme))
      ∧ dst_for P SignatureSchemes.Basic = P.basicDST
      ∧ dst_for P SignatureSchemes.MessageAugmentation = P.augDST
      ∧ dst_for P SignatureSchemes.ProofOfPossession = P.popSigDST := by
  obtain ⟨u, v, w, s⟩ := ct
  cases s <;>
    simp [SignCryptCiphertext.decrypt, SignCryptCiphertext.is_valid,
      SignCryptDecryptionKey.decrypt, dst_for]

/-- C3: `SignCryptDecryptionKey::decrypt` is exactly the composition of the
constant-time validity boolean — the same value `SignCryptCiphertext::is_valid`
computes — with the external `decrypt(v, point, choice)` primitive; the
boolean is passed through without being branched on. -/
theorem key_decrypt_is_valid_composition
    (P : SignCryptPrims PublicKey Signature SecretKeyRaw PublicKeyShare)
    (k : SignCryptDecryptionKey PublicKey)
    (ct : SignCryptCiphertext PublicKey Signature) :
    SignCryptDecryptionKey.decrypt P k ct
      = P.decrypt ct.v k.point (SignCryptCiphertext.is_valid P ct) := by
  obtain ⟨u, v, w, s⟩ := ct
  cases s <;> rfl

/-- C10: `SignCryptDecryptionKey::from_shares` is total over every share
list (including the empty one): it extracts the wrapped point of each share
preserving input order and returns exactly the external combiner's result,
performing no check of its own before delegating. -/
theorem from_shares_pure_delegation
    (P : SignCryptPrims PublicKey Signature SecretKeyRaw PublicKeyShare)
    (shares : List (SignDecryptionShare PublicKeyShare)) :
    SignCryptDecryptionKey.from_shares P shares
        = (P.core_combine_public_key_shares
            (shares.map (fun s => s.share))).map SignCryptDecryptionKey.mk
      ∧ SignCryptDecryptionKey.from_shares P ([] : List (SignDecryptionShare PublicKeyShare))
        = (P.core_combine_public_key_shares []).map SignCryptDecryptionKey.mk :=
  ⟨rfl, rfl⟩

/-- C9: the operations are pure — `is_valid`, both `decrypt`s and the
ciphertext they read depend only on the four fields `u`, `v`, `w`, `scheme`
(a ciphertext rebuilt from its fields is the same value and produces the
same results), the decryption key only on its wrapped point, and equality
of ciphertexts and keys is structural over those fields. -/
theorem ops_readonly_structural_equality
    (P : SignCryptPrims PublicKey Signature SecretKeyRaw PublicKeyShare)
    (ct ct' : SignCryptCiphertext PublicKey Signature)
    (k k' : SignCryptDecryptionKey PublicKey)
    (sk : SecretKey SecretKeyRaw) :
    (ct = ct' ↔ ct.u = ct'.u ∧ ct.v = ct'.v ∧ ct.w = ct'.w ∧ ct.scheme = ct'.scheme)
      ∧ (k = k' ↔ k.point = k'.point)
      ∧ (⟨ct.u, ct.v, ct.w, ct.scheme⟩ : SignCryptCiphertext PublicKey Signature) = ct
      ∧ SignCryptCiphertext.is_valid P ⟨ct.u, ct.v, ct.w, ct.scheme⟩
        = SignCryptCiphertext.is_valid P ct
      ∧ SignCryptCiphertext.decrypt P ⟨ct.u, ct.v, ct.w, ct.scheme⟩ sk
        = SignCryptCiphertext.decrypt P ct sk
      ∧ SignCryptDecryptionKey.decrypt P ⟨k.point⟩ ⟨ct.u, ct.v, ct.w, ct.scheme⟩
        = SignCryptDecryptionKey.decrypt P k ct := by
  refine ⟨?_, ?_, rfl, rfl, rfl, rfl⟩
  · obtain ⟨u, v, w, s⟩ := ct
    obtain ⟨u', v', w', s'⟩ := ct'
    simp
  · obtain ⟨p⟩ := k
    obtain ⟨p'⟩ := k'
    simp

/-! ### Concrete model of the external primitives

The DST constants, `BlsSignCrypt::unseal` / `valid` / `decrypt` and
`BlsSignatureCore::core_combine_public_key_shares` are code of this
repository that is not part of the verified source file (only their caller
is), so they are modelled from the contracts the spec states for them. The
pairing-friendly groups are modelled in the exponent: scalars and points
live in the prime field `ZMod 97`, the generator is `1`, and `sk · G` is
field multiplication. -/

/-- The prime field used by the concrete model for scalars and group
points. -/
abbrev F97 := ZMod 97

instance : Fact (Nat.Prime 97) := ⟨by norm_num⟩

/-- Modelled from the spec: the three external DST constants
(`BlsSignatureBasic::DST`, `BlsSignatureMessageAugmentation::DST`,
`BlsSignaturePop::SIG_DST`). Their definitions live outside the verified
source file; the spec requires only that every scheme variant has exactly
one associated DST of its own, so they are three distinct byte strings. -/
def modelDST : SignatureSchemes → List Nat
  | SignatureSchemes.Basic => [66, 65, 83]
  | SignatureSchemes.MessageAugmentation => [65, 85, 71]
  | SignatureSchemes.ProofOfPossession => [80, 79, 80]

/-- The generator of the modelled group (written multiplicatively in the
exponent): `1`. -/
def genG : F97 := 1

/-- The decryption point a holder of secret key `sk` derives directly:
`sk · G` (spec §3, Decryption Key). -/
def pointOfSecret (sk : F97) : F97 := sk * genG

/-- Modelled from the spec: the binding tag the sealer stores as `w`.
The spec leaves the signcryption algebra out of scope and requires only
that the validity check binds `w` to `u`, `v` and the sealing DST, so the
model binds them exactly. -/
def wTag (u : F97) (v : List Nat) (dst : List Nat) : List Nat :=
  u.val :: v.length :: (v ++ dst)

/-- Modelled from the spec: the external `valid(u, v, w, dst)` primitive —
the constant-time validity boolean, true exactly when `w` is the tag the
sealer would have produced for `u`, `v` and `dst`. -/
def modelValid (u : F97) (v : List Nat) (w : List Nat) (dst : List Nat) : Bool :=
  decide (w = wTag u v dst)

/-- The symmetric masking used by the modelled seal/unseal pair (XOR with a
pad derived from the decryption point). -/
def mask (key : Nat) (bs : List Nat) : List Nat :=
  bs.map (fun b => b ^^^ key)

/-- The sealed payload `v`: the masked message followed by a key-binding
tag identifying the recipient's decryption point. -/
def sealBody (m : List Nat) (pk : F97) : List Nat :=
  mask pk.val m ++ [pk.val]

/-- Modelled from the spec: the external `decrypt(v, point, choice)`
primitive — produces no value whenever the boolean is false, or when the
payload is not keyed to `point`; otherwise unmasks the payload. -/
def modelDecrypt (v : List Nat) (point : F97) (choice : Bool) : Option (List Nat) :=
  if choice then
    match v.getLast? with
    | some tag => if tag = point.val then some (mask point.val v.dropLast) else none
    | none => none
  else none

/-- Modelled from the spec: the external `unseal(u, v, w, sk, dst)`
primitive — derives the holder's decryption point from the secret key,
computes the validity boolean and decrypts, returning the plaintext when
the ciphertext is structurally consistent and keyed to `sk`, and no value
otherwise. -/
def modelUnseal (u : F97) (v : List Nat) (w : List Nat) (sk : F97)
    (dst : List Nat) : Option (List Nat) :=
  modelDecrypt v (pointOfSecret sk) (modelValid u v w dst)

/-- Modelled from the spec: the external sealer producing a ciphertext for
message `m`, recipient point `pk` and scheme `scheme`, with sealing
randomness `r`. -/
def sealModel (m : List Nat) (pk : F97) (scheme : SignatureSchemes)
    (r : F97) : SignCryptCiphertext F97 (List Nat) :=
  let v := sealBody m pk
  { u := r * genG, v := v, w := wTag (r * genG) v (modelDST scheme), scheme := scheme }

/-- The Lagrange coefficient at zero for node `xi` among the nodes `ids`. -/
def lagrangeCoeff (xi : F97) (ids : List F97) : F97 :=
  ((ids.filter (fun x => decide (x ≠ xi))).map (fun xj => xj * (xj - xi)⁻¹)).prod

/-- Polynomial interpolation at zero in the exponent: the weighted sum of
the share values by their Lagrange coefficients. -/
def interpolateShares (shares : List (F97 × F97)) : F97 :=
  (shares.map (fun s => s.2 * lagrangeCoeff s.1 (shares.map Prod.fst))).sum

/-- Modelled from the spec: the external
`core_combine_public_key_shares` primitive — rejects a share set below the
configured threshold or with a duplicate participant index with a
combination error, and otherwise interpolates the partial points at zero. -/
def modelCombine (threshold : Nat) (shares : List (F97 × F97)) :
    Except CombinationError F97 :=
  if shares.length < threshold then Except.error CombinationError.belowThreshold
  else if (shares.map Prod.fst).Nodup then Except.ok (interpolateShares shares)
  else Except.error CombinationError.duplicateIndex

/-- The concrete capability bundle built from the modelled primitives,
parameterised by the configured combination threshold. -/
def modelPrims (threshold : Nat) : SignCryptPrims F97 (List Nat) F97 (F97 × F97) where
  basicDST := modelDST SignatureSchemes.Basic
  augDST := modelDST SignatureSchemes.MessageAugmentation
  popSigDST := modelDST SignatureSchemes.ProofOfPossession
  «unseal» := modelUnseal
  valid := modelValid
  decrypt := modelDecrypt
  core_combine_public_key_shares := modelCombine threshold

/-- Modelled from the spec: secret sharing (key-share generation is an
external collaborator). A `t`-of-`n` split of a secret is a polynomial of
degree below `t` over the scalar field, given by its coefficient list with
the secret as the value at zero; participant `i` holds the partial point
of the evaluation at `i`. -/
def evalPoly (coeffs : List F97) (x : F97) : F97 :=
  coeffs.foldr (fun c acc => c + x * acc) 0

/-- The decryption share handed to participant `i` by the split of
`coeffs`. -/
def shareOf (coeffs : List F97) (i : F97) : SignDecryptionShare (F97 × F97) :=
  ⟨(i, evalPoly coeffs i)⟩

/-! ### Helper lemmas about the model -/

theorem pointOfSecret_eq (sk : F97) : pointOfSecret sk = sk :=
  mul_one sk

theorem mask_mask (k : Nat) (bs : List Nat) : mask k (mask k bs) = bs := by
  simp [mask, List.map_map, Function.comp_def, Nat.xor_assoc]

theorem wTag_inj {u : F97} {v v' dst dst' : List Nat}
    (h : wTag u v dst = wTag u v' dst') : v = v' ∧ dst = dst' := by
  simp only [wTag, List.cons.injEq] at h
  exact List.append_inj h.2.2 h.2.1

theorem modelDST_inj {s s' : SignatureSchemes}
    (h : modelDST s = modelDST s') : s = s' := by
  cases s <;> cases s' <;> simp_all [modelDST]

theorem sealBody_getLast (m : List Nat) (pk : F97) :
    (sealBody m pk).getLast? = some pk.val := by
  simp [sealBody]

theorem sealBody_dropLast (m : List Nat) (pk : F97) :
    (sealBody m pk).dropLast = mask pk.val m := by
  simp [sealBody]

theorem modelDecrypt_false (v : List Nat) (point : F97) :
    modelDecrypt v point false = none := rfl

theorem modelDecrypt_seal_right (m : List Nat) (pk : F97) :
    modelDecrypt (sealBody m pk) pk true = some m := by
  simp [modelDecrypt, sealBody_getLast, sealBody_dropLast, mask_mask]

theorem modelDecrypt_seal_wrong (m : List Nat) (pk point : F97) (b : Bool)
    (h : point ≠ pk) : modelDecrypt (sealBody m pk) point b = none := by
  have hval : pk.val ≠ point.val := fun hv => h (ZMod.val_injective 97 hv).symm
  cases b <;> simp [modelDecrypt, sealBody_getLast, hval]

/-- Normalisation: `SignCryptCiphertext::decrypt` over the model is
`modelUnseal` at the scheme's modelled DST. -/
theorem model_decrypt_eq (t : Nat) (ct : SignCryptCiphertext F97 (List Nat))
    (sk : F97) :
    SignCryptCiphertext.decrypt (modelPrims t) ct ⟨sk⟩
      = modelUnseal ct.u ct.v ct.w sk (modelDST ct.scheme) := by
  obtain ⟨u, v, w, s⟩ := ct
  cases s <;> rfl

/-- Normalisation: `SignCryptCiphertext::is_valid` over the model is
`modelValid` at the scheme's modelled DST. -/
theorem model_is_valid_eq (t : Nat) (ct : SignCryptCiphertext F97 (List Nat)) :
    SignCryptCiphertext.is_valid (modelPrims t) ct
      = modelValid ct.u ct.v ct.w (modelDST ct.scheme) := by
  obtain ⟨u, v, w, s⟩ := ct
  cases s <;> rfl

theorem sealModel_scheme (m : List Nat) (pk : F97) (s : SignatureSchemes)
    (r : F97) : (sealModel m pk s r).scheme = s := rfl

theorem sealModel_w_eq (m : List Nat) (pk : F97) (s : SignatureSchemes)
    (r : F97) :
    (sealModel m pk s r).w
      = wTag (sealModel m pk s r).u (sealModel m pk s r).v (modelDST s) := rfl

theorem sealModel_valid (m : List Nat) (pk : F97) (s : SignatureSchemes)
    (r : F97) :
    modelValid (sealModel m pk s r).u (sealModel m pk s r).v
      (sealModel m pk s r).w (modelDST s) = true := by
  simp [sealModel, modelValid]

theorem sealModel_valid_wrong_dst (m : List Nat) (pk : F97)
    (s s' : SignatureSchemes) (r : F97) (h : s' ≠ s) :
    modelValid (sealModel m pk s r).u (sealModel m pk s r).v
      (sealModel m pk s r).w (modelDST s') = false := by
  simp only [sealModel, modelValid, decide_eq_false_iff_not]
  intro hEq
  exact h (modelDST_inj (wTag_inj hEq).2.symm)

/-- C2: `SignCryptCiphertext::decrypt` equals the external
`unseal(u, v, w, sk, dst)` with the DST resolved from the ciphertext's
scheme tag (for every capability bundle), and over the modelled primitives
a sealed ciphertext decrypts to its message with the right key while a
wrong key, a tampered `v`, a tampered `w` or a changed scheme tag (DST
mismatch) each yield the empty optional — a value, never an exception. -/
theorem decrypt_unseal_delegation_and_absence
    (P : SignCryptPrims PublicKey Signature SecretKeyRaw PublicKeyShare)
    (ct0 : SignCryptCiphertext PublicKey Signature)
    (sk0 : SecretKey SecretKeyRaw)
    (m v' w' : List Nat) (sk skWrong r : F97) (s s' : SignatureSchemes)
    (hk : skWrong ≠ sk)
    (hv : v' ≠ (sealModel m (pointOfSecret sk) s r).v)
    (hw : w' ≠ (sealModel m (pointOfSecret sk) s r).w)
    (hs : s' ≠ s) :
    SignCryptCiphertext.decrypt P ct0 sk0
        = P.«unseal» ct0.u ct0.v ct0.w sk0.raw (dst_for P ct0.scheme)
      ∧ SignCryptCiphertext.decrypt (modelPrims 0)
          (sealModel m (pointOfSecret sk) s r) ⟨sk⟩ = some m
      ∧ SignCryptCiphertext.decrypt (modelPrims 0)
          (sealModel m (pointOfSecret sk) s r) ⟨skWrong⟩ = none
      ∧ SignCryptCiphertext.decrypt (modelPrims 0)
          { sealModel m (pointOfSecret sk) s r with v := v' } ⟨sk⟩ = none
      ∧ SignCryptCiphertext.decrypt (modelPrims 0)
          { sealModel m (pointOfSecret sk) s r with w := w' } ⟨sk⟩ = none
      ∧ SignCryptCiphertext.decrypt (modelPrims 0)
          { sealModel m (pointOfSecret sk) s r with scheme := s' } ⟨sk⟩ = none := by
  refine ⟨?_, ?_, ?_, ?_, ?_, ?_⟩
  · obtain ⟨u, v, w, sc⟩ := ct0
    cases sc <;> rfl
  · rw [model_decrypt_eq, modelUnseal, sealModel_scheme, sealModel_valid]
    exact modelDecrypt_seal_right m (pointOfSecret sk)
  · rw [model_decrypt_eq, modelUnseal]
    refine modelDecrypt_seal_wrong m (pointOfSecret sk) (pointOfSecret skWrong) _ ?_
    rw [pointOfSecret_eq, pointOfSecret_eq]
    exact hk
  · rw [model_decrypt_eq, modelUnseal]
    have hval : modelValid (sealModel m (pointOfSecret sk) s r).u v'
        (sealModel m (pointOfSecret sk) s r).w (modelDST s) = false := by
      rw [modelValid, decide_eq_false_iff_not]
      intro hEq
      have hvv := wTag_inj ((sealModel_w_eq m (pointOfSecret sk) s r).symm.trans hEq)
      exact hv hvv.1.symm
    show modelDecrypt v' (pointOfSecret sk)
      (modelValid (sealModel m (pointOfSecret sk) s r).u v'
        (sealModel m (pointOfSecret sk) s r).w (modelDST s)) = none
    rw [hval]
    exact modelDecrypt_false _ _
  · rw [model_decrypt_eq, modelUnseal]
    have hval : modelValid (sealModel m (pointOfSecret sk) s r).u
        (sealModel m (pointOfSecret sk) s r).v w' (modelDST s) = false := by
      rw [modelValid, decide_eq_false_iff_not]
      intro hEq
      exact hw (hEq.trans (sealModel_w_eq m (pointOfSecret sk) s r).symm)
    show modelDecrypt (sealModel m (pointOfSecret sk) s r).v (pointOfSecret sk)
      (modelValid (sealModel m (pointOfSecret sk) s r).u
        (sealModel m (pointOfSecret sk) s r).v w' (modelDST s)) = none
    rw [hval]
    exact modelDecrypt_false _ _
  · rw [model_decrypt_eq, modelUnseal]
    show modelDecrypt (sealModel m (pointOfSecret sk) s r).v (pointOfSecret sk)
      (modelValid (sealModel m (pointOfSecret sk) s r).u
        (sealModel m (pointOfSecret sk) s r).v
        (sealModel m (pointOfSecret sk) s r).w (modelDST s')) = none
    rw [sealModel_valid_wrong_dst m (pointOfSecret sk) s s' r hs]
    exact modelDecrypt_false _ _

/-- Witness for C2 at concrete inputs: message `[104, 105]`, secret key
`3`, wrong key `4`, scheme `Basic` retagged to `ProofOfPossession`. -/
theorem decrypt_unseal_delegation_and_absence_witness :
    (4 : F97) ≠ 3
      ∧ ([] : List Nat) ≠ (sealModel [104, 105] (pointOfSecret 3)
          SignatureSchemes.Basic 7).v
      ∧ ([] : List Nat) ≠ (sealModel [104, 105] (pointOfSecret 3)
          SignatureSchemes.Basic 7).w
      ∧ SignatureSchemes.ProofOfPossession ≠ SignatureSchemes.Basic
      ∧ SignCryptCiphertext.decrypt (modelPrims 0)
          (sealModel [104, 105] (pointOfSecret 3) SignatureSchemes.Basic 7)
          ⟨3⟩ = some [104, 105]
      ∧ SignCryptCiphertext.decrypt (modelPrims 0)
          (sealModel [104, 105] (pointOfSecret 3) SignatureSchemes.Basic 7)
          ⟨4⟩ = none
      ∧ SignCryptCiphertext.decrypt (modelPrims 0)
          { sealModel [104, 105] (pointOfSecret 3) SignatureSchemes.Basic 7
            with scheme := SignatureSchemes.ProofOfPossession } ⟨3⟩ = none := by
  have h := decrypt_unseal_delegation_and_absence
    (modelPrims 0) ⟨2, [3], [4], SignatureSchemes.Basic⟩ ⟨5⟩
    [104, 105] [] [] 3 4 7 SignatureSchemes.Basic
    SignatureSchemes.ProofOfPossession
    (by decide) (by decide) (by decide) (by decide)
  exact ⟨by decide, by decide, by decide, by decide,
    h.2.1, h.2.2.1, h.2.2.2.2.2⟩

/-- C8: for every ciphertext sealed under one scheme variant whose tag is
then changed to a different variant, `is_valid` is false and `decrypt`
with the correct secret key returns the empty optional. -/
theorem scheme_tag_change_invalidates
    (m : List Nat) (sk r : F97) (s s' : SignatureSchemes) (h : s' ≠ s) :
    SignCryptCiphertext.is_valid (modelPrims 0)
        { sealModel m (pointOfSecret sk) s r with scheme := s' } = false
      ∧ SignCryptCiphertext.decrypt (modelPrims 0)
        { sealModel m (pointOfSecret sk) s r with scheme := s' } ⟨sk⟩ = none := by
  constructor
  · rw [model_is_valid_eq]
    show modelValid (sealModel m (pointOfSecret sk) s r).u
      (sealModel m (pointOfSecret sk) s r).v
      (sealModel m (pointOfSecret sk) s r).w (modelDST s') = false
    exact sealModel_valid_wrong_dst m (pointOfSecret sk) s s' r h
  · rw [model_decrypt_eq, modelUnseal]
    show modelDecrypt (sealModel m (pointOfSecret sk) s r).v (pointOfSecret sk)
      (modelValid (sealModel m (pointOfSecret sk) s r).u
        (sealModel m (pointOfSecret sk) s r).v
        (sealModel m (pointOfSecret sk) s r).w (modelDST s')) = none
    rw [sealModel_valid_wrong_dst m (pointOfSecret sk) s s' r h]
    exact modelDecrypt_false _ _

/-- Witness for C8: scheme `Basic` sealed, retagged to
`MessageAugmentation`. -/
theorem scheme_tag_change_invalidates_witness :
    SignatureSchemes.MessageAugmentation ≠ SignatureSchemes.Basic
      ∧ SignCryptCiphertext.is_valid (modelPrims 0)
          { sealModel [9] (pointOfSecret 11) SignatureSchemes.Basic 5
            with scheme := SignatureSchemes.MessageAugmentation } = false
      ∧ SignCryptCiphertext.decrypt (modelPrims 0)
          { sealModel [9] (pointOfSecret 11) SignatureSchemes.Basic 5
            with scheme := SignatureSchemes.MessageAugmentation } ⟨11⟩ = none := by
  have h := scheme_tag_change_invalidates [9] 11 5 SignatureSchemes.Basic
    SignatureSchemes.MessageAugmentation (by decide)
  exact ⟨by decide, h.1, h.2⟩

/-- C4: combining a share set below the configured threshold, or one with
a repeated participant index, surfaces a `CombinationError` and never a
key, while a well-formed set yields a new key wrapping the combined
point. -/
theorem from_shares_rejects_bad_sets
    (t : Nat) (s1 s2 s3 : List (SignDecryptionShare (F97 × F97)))
    (h1 : s1.length < t)
    (h2 : ¬ (s2.map (fun sh => sh.share.1)).Nodup)
    (h3 : t ≤ s3.length)
    (h3n : (s3.map (fun sh => sh.share.1)).Nodup) :
    SignCryptDecryptionKey.from_shares (modelPrims t) s1
        = Except.error CombinationError.belowThreshold
      ∧ (∃ e, SignCryptDecryptionKey.from_shares (modelPrims t) s2
          = Except.error e)
      ∧ SignCryptDecryptionKey.from_shares (modelPrims t) s3
        = Except.ok ⟨interpolateShares (s3.map (fun sh => sh.share))⟩ := by
  refine ⟨?_, ?_, ?_⟩
  · simp [SignCryptDecryptionKey.from_shares, modelPrims, modelCombine,
      List.length_map, h1, Except.map]
  · by_cases hl : s2.length < t
    · exact ⟨CombinationError.belowThreshold,
        by simp [SignCryptDecryptionKey.from_shares, modelPrims, modelCombine,
          List.length_map, hl, Except.map]⟩
    · refine ⟨CombinationError.duplicateIndex, ?_⟩
      simp [SignCryptDecryptionKey.from_shares, modelPrims, modelCombine,
        List.length_map, hl, Function.comp_def, h2, Except.map]
  · simp [SignCryptDecryptionKey.from_shares, modelPrims, modelCombine,
      List.length_map, Nat.not_lt.mpr h3, Function.comp_def, h3n, Except.map]

/-- Witness for C4: threshold 2, a singleton set, a duplicated-index pair
and a well-formed pair. -/
theorem from_shares_rejects_bad_sets_witness :
    (([⟨(1, 5)⟩] : List (SignDecryptionShare (F97 × F97))).length < 2)
      ∧ ¬ (([⟨(1, 5)⟩, ⟨(1, 6)⟩] :
          List (SignDecryptionShare (F97 × F97))).map (fun sh => sh.share.1)).Nodup
      ∧ SignCryptDecryptionKey.from_shares (modelPrims 2)
          [⟨(1, 5)⟩] = Except.error CombinationError.belowThreshold
      ∧ (∃ e, SignCryptDecryptionKey.from_shares (modelPrims 2)
          [⟨(1, 5)⟩, ⟨(1, 6)⟩] = Except.error e)
      ∧ SignCryptDecryptionKey.from_shares (modelPrims 2)
          [⟨(1, 5)⟩, ⟨(2, 7)⟩]
        = Except.ok ⟨interpolateShares [(1, 5), (2, 7)]⟩ := by
  have h := from_shares_rejects_bad_sets 2
    [⟨(1, 5)⟩] [⟨(1, 5)⟩, ⟨(1, 6)⟩] [⟨(1, 5)⟩, ⟨(2, 7)⟩]
    (by decide) (by decide) (by decide) (by decide)
  exact ⟨by decide, by decide, h.1, h.2.1, h.2.2⟩

/-! ### Serialization model (spec §6) -/

/-- Modelled from the spec: the enumerated tag value of each scheme
variant in the serialized layout. -/
def encScheme : SignatureSchemes → Nat
  | SignatureSchemes.Basic => 0
  | SignatureSchemes.MessageAugmentation => 1
  | SignatureSchemes.ProofOfPossession => 2

/-- Modelled from the spec: tag decoding — the three known values
round-trip to their variant, every other value fails. -/
def decScheme : Nat → Option SignatureSchemes
  | 0 => some SignatureSchemes.Basic
  | 1 => some SignatureSchemes.MessageAugmentation
  | 2 => some SignatureSchemes.ProofOfPossession
  | _ + 3 => none

/-- Modelled from the spec: the serialized ciphertext layout — an ordered
record of the encoded point `u`, the length-delimited raw bytes `v`, the
encoded point `w` and the scheme tag (the wire codecs for the individual
points are external collaborators). -/
def serializeCiphertext (ct : SignCryptCiphertext F97 (List Nat)) : List Nat :=
  ct.u.val :: ct.v.length :: (ct.v ++ (ct.w.length :: (ct.w ++ [encScheme ct.scheme])))

/-- Modelled from the spec: deserialization of the ciphertext layout,
failing on truncated input, an out-of-range point encoding or an unknown
scheme tag. -/
def deserializeCiphertext (l : List Nat) :
    Option (SignCryptCiphertext F97 (List Nat)) :=
  match l with
  | n :: vlen :: rest2 =>
    if n < 97 then
      if vlen ≤ rest2.length then
        match rest2.drop vlen with
        | wlen :: rest3 =>
          if wlen ≤ rest3.length then
            match rest3.drop wlen with
            | [tag] =>
              (decScheme tag).map
                (fun s => ⟨(n : F97), rest2.take vlen, rest3.take wlen, s⟩)
            | _ => none
          else none
        | [] => none
      else none
    else none
  | _ => none

theorem decScheme_encScheme (s : SignatureSchemes) :
    decScheme (encScheme s) = some s := by
  cases s <;> rfl

/-- C5: deserializing the serialization of any ciphertext (any of the
three scheme variants) yields a structurally equal ciphertext, and a byte
stream of the same record shape whose scheme tag is out of range fails to
deserialize rather than defaulting to a guessed scheme. -/
theorem serde_roundtrip_and_unknown_tag
    (ct : SignCryptCiphertext F97 (List Nat)) (tag : Nat) (htag : 3 ≤ tag) :
    deserializeCiphertext (serializeCiphertext ct) = some ct
      ∧ deserializeCiphertext
          (ct.u.val :: ct.v.length ::
            (ct.v ++ (ct.w.length :: (ct.w ++ [tag])))) = none := by
  obtain ⟨k, rfl⟩ : ∃ k, tag = k + 3 := ⟨tag - 3, by omega⟩
  obtain ⟨u, v, w, s⟩ := ct
  constructor
  · show deserializeCiphertext
      (u.val :: v.length :: (v ++ (w.length :: (w ++ [encScheme s])))) = some ⟨u, v, w, s⟩
    simp [deserializeCiphertext, ZMod.val_lt u, decScheme_encScheme,
      ZMod.natCast_rightInverse u]
  · show deserializeCiphertext
      (u.val :: v.length :: (v ++ (w.length :: (w ++ [k + 3])))) = none
    simp [deserializeCiphertext, ZMod.val_lt u, decScheme]

/-- Witness for C5 at a concrete ciphertext and the out-of-range tag 9. -/
theorem serde_roundtrip_and_unknown_tag_witness :
    (3 ≤ 9)
      ∧ deserializeCiphertext (serializeCiphertext
          (⟨2, [5], [6], SignatureSchemes.Basic⟩ :
            SignCryptCiphertext F97 (List Nat)))
        = some ⟨2, [5], [6], SignatureSchemes.Basic⟩
      ∧ deserializeCiphertext
          ((2 : F97).val :: [5].length :: ([5] ++ ([6].length :: ([6] ++ [9]))))
        = none := by
  have h := serde_roundtrip_and_unknown_tag
    ⟨2, [5], [6], SignatureSchemes.Basic⟩ 9 (by decide)
  exact ⟨by decide, h.1, h.2⟩

/-! ### Correctness of the modelled share combination (Lagrange) -/

/-- The polynomial denoted by a coefficient list (constant coefficient
first), used to relate `evalPoly` to Mathlib's Lagrange interpolation. -/
noncomputable def polyOf (coeffs : List F97) : Polynomial F97 :=
  coeffs.foldr (fun c acc => Polynomial.C c + Polynomial.X * acc) 0

theorem evalPoly_eq (coeffs : List F97) (x : F97) :
    evalPoly coeffs x = (polyOf coeffs).eval x := by
  induction coeffs with
  | nil => simp [evalPoly, polyOf]
  | cons c cs ih =>
    have hstep : evalPoly (c :: cs) x = c + x * evalPoly cs x := rfl
    have hsplit : polyOf (c :: cs) = Polynomial.C c + Polynomial.X * polyOf cs := rfl
    rw [hstep, hsplit, Polynomial.eval_add, Polynomial.eval_C,
      Polynomial.eval_mul, Polynomial.eval_X, ih]

theorem withBot_natCast_lt {a b : ℕ} (h : a < b) :
    ((a : ℕ) : WithBot ℕ) < ((b : ℕ) : WithBot ℕ) := by
  rw [Nat.cast_withBot, Nat.cast_withBot]
  exact_mod_cast h

theorem degree_polyOf_lt (coeffs : List F97) :
    (polyOf coeffs).degree < ((coeffs.length : ℕ) : WithBot ℕ) := by
  induction coeffs with
  | nil =>
    rw [Nat.cast_withBot]
    have hz : polyOf [] = 0 := rfl
    rw [hz, Polynomial.degree_zero]
    exact WithBot.bot_lt_coe 0
  | cons c cs ih =>
    have h1 : (Polynomial.C c).degree < ((cs.length + 1 : ℕ) : WithBot ℕ) := by
      refine lt_of_le_of_lt Polynomial.degree_C_le ?_
      have h0 : ((0 : ℕ) : WithBot ℕ) = (0 : WithBot ℕ) := rfl
      rw [← h0]
      exact withBot_natCast_lt (Nat.succ_pos cs.length)
    have h2 : (Polynomial.X * polyOf cs).degree
        < ((cs.length + 1 : ℕ) : WithBot ℕ) := by
      rw [Polynomial.degree_mul, Polynomial.degree_X]
      rcases hdeg : (polyOf cs).degree with _ | d
      · rw [WithBot.none_eq_bot, WithBot.add_bot, Nat.cast_withBot]
        exact WithBot.bot_lt_coe (cs.length + 1)
      · have hd : d < cs.length := by
          have hc := ih
          rw [hdeg, Nat.cast_withBot] at hc
          exact WithBot.some_lt_some.mp hc
        rw [Nat.cast_withBot, WithBot.some_eq_coe]
        have h1d : (1 : WithBot ℕ) + WithBot.some d = WithBot.some (1 + d) := rfl
        rw [h1d]
        exact WithBot.coe_lt_coe.mpr (by omega)
    have hsplit : polyOf (c :: cs) = Polynomial.C c + Polynomial.X * polyOf cs := rfl
    calc (polyOf (c :: cs)).degree
        = (Polynomial.C c + Polynomial.X * polyOf cs).degree := by rw [hsplit]
      _ ≤ max (Polynomial.C c).degree (Polynomial.X * polyOf cs).degree :=
          Polynomial.degree_add_le _ _
      _ < ((cs.length + 1 : ℕ) : WithBot ℕ) := max_lt h1 h2

theorem lagrangeCoeff_eq_basis_eval (L : List F97) (hnd : L.Nodup) (i : F97) :
    lagrangeCoeff i L
      = (Lagrange.basis L.toFinset (id : F97 → F97) i).eval 0 := by
  rw [Lagrange.basis, Polynomial.eval_prod, lagrangeCoeff,
    ← List.prod_toFinset _ (hnd.filter _)]
  have hset : (L.filter (fun x => decide (x ≠ i))).toFinset = L.toFinset.erase i := by
    ext a
    simp [List.mem_filter, Finset.mem_erase, and_comm]
  rw [hset]
  refine Finset.prod_congr rfl ?_
  intro j hj
  obtain ⟨hji, _⟩ := Finset.mem_erase.mp hj
  rw [Lagrange.basisDivisor]
  simp only [Polynomial.eval_mul, Polynomial.eval_C, Polynomial.eval_sub,
    Polynomial.eval_X, id]
  rw [zero_sub, show (i : F97) - j = -(j - i) from (neg_sub j i).symm, inv_neg,
    neg_mul, mul_neg, neg_neg, mul_comm]

theorem interpolateShares_recovers (coeffs : List F97) (L : List F97)
    (hnd : L.Nodup) (hlen : coeffs.length ≤ L.length) :
    interpolateShares (L.map (fun i => (i, evalPoly coeffs i)))
      = evalPoly coeffs 0 := by
  have hcard : L.toFinset.card = L.length := List.toFinset_card_of_nodup hnd
  have hinj : Set.InjOn (id : F97 → F97) L.toFinset := fun a _ b _ h => h
  have hdeg : (polyOf coeffs).degree < (L.toFinset.card : WithBot ℕ) := by
    refine lt_of_lt_of_le (degree_polyOf_lt coeffs) ?_
    rw [hcard, Nat.cast_withBot, Nat.cast_withBot]
    exact_mod_cast hlen
  have hf := Lagrange.eq_interpolate (v := (id : F97 → F97)) hinj hdeg
  have h0 : (polyOf coeffs).eval 0
      = ∑ i ∈ L.toFinset, (polyOf coeffs).eval i
          * (Lagrange.basis L.toFinset (id : F97 → F97) i).eval 0 := by
    conv_lhs => rw [hf]
    rw [Lagrange.interpolate_apply, Polynomial.eval_finset_sum]
    refine Finset.sum_congr rfl ?_
    intro i _
    rw [Polynomial.eval_mul, Polynomial.eval_C, id]
  have hids : (L.map (fun i => (i, evalPoly coeffs i))).map Prod.fst = L := by
    simp [List.map_map, Function.comp_def]
  rw [interpolateShares, hids, List.map_map]
  have hfun : ((fun s : F97 × F97 => s.2 * lagrangeCoeff s.1 L)
      ∘ fun i => (i, evalPoly coeffs i))
      = fun i => evalPoly coeffs i * lagrangeCoeff i L := rfl
  rw [hfun, ← List.sum_toFinset _ hnd, evalPoly_eq coeffs 0, h0]
  refine Finset.sum_congr rfl ?_
  intro i hi
  rw [evalPoly_eq, lagrangeCoeff_eq_basis_eval L hnd i]

/-- C6: for a secret split into `t`-of-`n` shares (a polynomial of degree
below `t` with the secret at zero), combining any duplicate-free subset of
at least `t` shares through `SignCryptDecryptionKey::from_shares` yields
the key wrapping the direct holder's point, decrypting any ciphertext with
that key gives exactly what `SignCryptCiphertext::decrypt` gives with the
original secret key, and on an honestly sealed ciphertext both recover the
plaintext. -/
theorem threshold_combined_key_decrypts_like_secret
    (coeffs : List F97) (L : List F97)
    (ct : SignCryptCiphertext F97 (List Nat))
    (m : List Nat) (r : F97) (s : SignatureSchemes)
    (hnd : L.Nodup) (hlen : coeffs.length ≤ L.length) :
    SignCryptDecryptionKey.from_shares (modelPrims coeffs.length)
        (L.map (shareOf coeffs))
      = Except.ok ⟨pointOfSecret (evalPoly coeffs 0)⟩
    ∧ SignCryptDecryptionKey.decrypt (modelPrims coeffs.length)
        ⟨pointOfSecret (evalPoly coeffs 0)⟩ ct
      = SignCryptCiphertext.decrypt (modelPrims coeffs.length) ct ⟨evalPoly coeffs 0⟩
    ∧ SignCryptCiphertext.decrypt (modelPrims coeffs.length)
        (sealModel m (pointOfSecret (evalPoly coeffs 0)) s r) ⟨evalPoly coeffs 0⟩
      = some m := by
  refine ⟨?_, ?_, ?_⟩
  · have hpts : (L.map (shareOf coeffs)).map (fun sh => sh.share)
        = L.map (fun i => (i, evalPoly coeffs i)) := by
      rw [List.map_map]
      rfl
    have hids : (L.map (fun i => (i, evalPoly coeffs i))).map Prod.fst = L := by
      simp [List.map_map, Function.comp_def]
    have hlen2 : ¬ (L.map (fun i => (i, evalPoly coeffs i))).length < coeffs.length := by
      rw [List.length_map]
      omega
    rw [SignCryptDecryptionKey.from_shares]
    show (modelCombine coeffs.length
        ((L.map (shareOf coeffs)).map (fun sh => sh.share))).map
          SignCryptDecryptionKey.mk = _
    rw [hpts, modelCombine, if_neg hlen2, hids, if_pos hnd,
      interpolateShares_recovers coeffs L hnd hlen, pointOfSecret_eq]
    rfl
  · obtain ⟨u, v, w, sc⟩ := ct
    cases sc <;> rfl
  · rw [model_decrypt_eq, modelUnseal, sealModel_scheme, sealModel_valid]
    exact modelDecrypt_seal_right m (pointOfSecret (evalPoly coeffs 0))

/-- Witness for C6: the secret 3 split by the polynomial `3 + 5·x`
(threshold 2), reconstructed from the three shares at `1`, `2`, `4`. -/
theorem threshold_combined_key_decrypts_like_secret_witness :
    ([1, 2, 4] : List F97).Nodup
      ∧ ([3, 5] : List F97).length ≤ ([1, 2, 4] : List F97).length
      ∧ SignCryptDecryptionKey.from_shares (modelPrims 2)
          ([1, 2, 4].map (shareOf [3, 5]))
        = Except.ok ⟨pointOfSecret (evalPoly [3, 5] 0)⟩
      ∧ SignCryptCiphertext.decrypt (modelPrims 2)
          (sealModel [7, 8] (pointOfSecret (evalPoly [3, 5] 0))
            SignatureSchemes.ProofOfPossession 9) ⟨evalPoly [3, 5] 0⟩
        = some [7, 8] := by
  have h := threshold_combined_key_decrypts_like_secret [3, 5] [1, 2, 4]
    ⟨2, [9], [1], SignatureSchemes.Basic⟩ [7, 8] 9
    SignatureSchemes.ProofOfPossession (by decide) (by decide)
  exact ⟨by decide, by decide, h.1, h.2.2⟩

end BlsfulSignCrypt
